import Mathlib

/-!
Verification of the Raft consensus core (crates/raft-core, raft-storage) against
its specification. The definitions below are a shallow embedding of the Rust
source: `RaftNode` and its handlers mirror src/crates/raft-core/src/node.rs,
`LogEntry` mirrors log.rs, `RaftMessage` mirrors message.rs, and the storage
states mirror src/crates/raft-storage/src/lib.rs. Rust `u64` values are
embedded as `Nat` (the only arithmetic is increment and comparison; overflow is
out of scope per the spec), `Vec<u8>` commands as `List Nat`, and
`HashMap<u64, u64>` as an association list with insert-or-replace semantics.
-/

namespace Raft

/-- A log entry: the creating term, the 1-based index, and the opaque command
bytes (src/crates/raft-core/src/log.rs, `LogEntry`). -/
structure LogEntry where
  term : Nat
  index : Nat
  command : List Nat
  deriving DecidableEq

/-- The role of a node (src/crates/raft-core/src/node.rs, `NodeState`). -/
inductive NodeState where
  | Follower
  | Candidate
  | Leader
  deriving DecidableEq

/-- Raft peer-to-peer messages (src/crates/raft-core/src/message.rs,
`RaftMessage`). -/
inductive RaftMessage where
  | PreVoteRequest (term candidate_id last_log_index last_log_term : Nat)
  | PreVoteResponse (term : Nat) (vote_granted : Bool)
  | VoteRequest (term candidate_id last_log_index last_log_term : Nat)
  | VoteResponse (term : Nat) (vote_granted : Bool)
  | AppendEntries (term leader_id prev_log_index prev_log_term : Nat)
      (entries : List LogEntry) (leader_commit : Nat)
  | AppendEntriesResponse (term : Nat) (success : Bool)
  deriving DecidableEq

/-- Timing configuration (src/crates/raft-core/src/node.rs, `RaftConfig`).
Timers live in the host; the fields are carried but never read by handlers. -/
structure RaftConfig where
  election_timeout_min : Nat
  election_timeout_max : Nat
  heartbeat_interval : Nat
  deriving DecidableEq

/-- The `Default` impl of `RaftConfig`. -/
def RaftConfig.default : RaftConfig := ⟨150, 300, 50⟩

/-- Lookup in an association list, mirroring `HashMap::get`. -/
def alistGet (m : List (Nat × Nat)) (k : Nat) : Option Nat :=
  (m.find? (fun p => p.1 == k)).map (fun p => p.2)

/-- Overwrite the value at a key if present, mirroring a successful
`HashMap::get_mut` followed by assignment; a missing key is left alone. -/
def alistSet (m : List (Nat × Nat)) (k v : Nat) : List (Nat × Nat) :=
  m.map (fun p => if p.1 == k then (k, v) else p)

/-- Insert or replace a binding, mirroring `HashMap::insert`. -/
def alistInsert (m : List (Nat × Nat)) (k v : Nat) : List (Nat × Nat) :=
  if (m.find? (fun p => p.1 == k)).isSome then alistSet m k v else m ++ [(k, v)]

/-- The state of one Raft node (src/crates/raft-core/src/node.rs, `RaftNode`).
The `prevotes_received` field is modelled from the spec (section 4.3): the
PreVote handlers invoked by src/crates/raft-wasm/src/lib.rs are absent from
src/crates/raft-core, and the spec has the node collect PreVote grants before
deciding to start a real election. No handler embedded from node.rs reads or
writes this field. -/
structure RaftNode where
  id : Nat
  current_term : Nat
  voted_for : Option Nat
  log : List LogEntry
  state : NodeState
  commit_index : Nat
  last_applied : Nat
  next_index : List (Nat × Nat)
  match_index : List (Nat × Nat)
  cluster_nodes : List Nat
  config : RaftConfig
  votes_received : List Nat
  prevotes_received : List Nat
  deriving DecidableEq

/-- `RaftNode::new`: a fresh follower with term 0, no vote, empty log. -/
def RaftNode.new (id : Nat) (cluster_nodes : List Nat) : RaftNode :=
  { id := id
    current_term := 0
    voted_for := none
    log := []
    state := .Follower
    commit_index := 0
    last_applied := 0
    next_index := []
    match_index := []
    cluster_nodes := cluster_nodes
    config := .default
    votes_received := []
    prevotes_received := [] }

/-- `RaftNode::quorum_size`: majority of the cluster. -/
def quorum_size (nd : RaftNode) : Nat :=
  nd.cluster_nodes.length / 2 + 1

/-- `RaftNode::has_quorum`. -/
def has_quorum (nd : RaftNode) : Bool :=
  decide (quorum_size nd ≤ nd.votes_received.length)

/-- `RaftNode::last_log_index`: index of the last entry, 0 if empty. -/
def last_log_index (nd : RaftNode) : Nat :=
  ((nd.log.getLast?).map LogEntry.index).getD 0

/-- `RaftNode::last_log_term`: term of the last entry, 0 if empty. -/
def last_log_term (nd : RaftNode) : Nat :=
  ((nd.log.getLast?).map LogEntry.term).getD 0

/-- `RaftNode::get_entry`, factored over a raw log list: index 0 yields none,
otherwise the first entry whose `index` field matches. -/
def logGetEntry (log : List LogEntry) (index : Nat) : Option LogEntry :=
  if index = 0 then none else log.find? (fun e => e.index == index)

/-- `RaftNode::get_entry`. -/
def get_entry (nd : RaftNode) (index : Nat) : Option LogEntry :=
  logGetEntry nd.log index

/-- `RaftNode::get_term_at` over a raw log list: 0 if the entry is absent. -/
def logTermAt (log : List LogEntry) (index : Nat) : Nat :=
  ((logGetEntry log index).map LogEntry.term).getD 0

/-- `RaftNode::get_term_at`. -/
def get_term_at (nd : RaftNode) (index : Nat) : Nat :=
  logTermAt nd.log index

/-- `RaftNode::become_follower`: role Follower, term set to the argument,
vote and candidate state cleared (the reset is unconditional in the source). -/
def become_follower (nd : RaftNode) (term : Nat) : RaftNode :=
  { nd with state := .Follower, current_term := term, voted_for := none,
            votes_received := [] }

/-- `RaftNode::start_election`: become Candidate, bump the term, vote for
self, and produce the VoteRequest broadcast to peers. -/
def start_election (nd : RaftNode) : RaftNode × RaftMessage :=
  let nd := { nd with state := .Candidate, current_term := nd.current_term + 1 }
  let nd := { nd with voted_for := some nd.id, votes_received := [nd.id] }
  (nd, .VoteRequest nd.current_term nd.id (last_log_index nd) (last_log_term nd))

/-- One iteration of the peer loop in `RaftNode::become_leader`. -/
def leaderInitStep (lli : Nat) (st : RaftNode) (node_id : Nat) : RaftNode :=
  if node_id ≠ st.id then
    { st with next_index := alistInsert st.next_index node_id (lli + 1),
              match_index := alistInsert st.match_index node_id 0 }
  else st

/-- `RaftNode::become_leader`: role Leader, votes cleared, per-peer
`next_index` set to last_log_index+1 and `match_index` to 0. -/
def become_leader (nd : RaftNode) : RaftNode :=
  let nd := { nd with state := .Leader, votes_received := [] }
  nd.cluster_nodes.foldl (leaderInitStep (last_log_index nd)) nd

/-- `RaftNode::append_entry`: leader-side append of a fresh entry at
last_log_index+1 with the current term. -/
def append_entry (nd : RaftNode) (command : List Nat) : RaftNode :=
  { nd with log := nd.log ++ [⟨nd.current_term, last_log_index nd + 1, command⟩] }

/-- `RaftNode::is_log_up_to_date`: compare the candidate's last log
(term, index) against ours, term first, index on a tie. The argument order
(index, then term) follows the source. -/
def is_log_up_to_date (nd : RaftNode) (cand_last_index cand_last_term : Nat) : Bool :=
  let our_last_term := last_log_term nd
  let our_last_index := last_log_index nd
  if cand_last_term ≠ our_last_term then decide (our_last_term < cand_last_term)
  else decide (our_last_index ≤ cand_last_index)

/-- `RaftNode::handle_vote_request`. Returns the new node state, the
VoteResponse, and the should-reset-election-timer flag. -/
def handle_vote_request (nd : RaftNode) (term candidate_id cand_last_index cand_last_term : Nat) :
    RaftNode × RaftMessage × Bool :=
  if term < nd.current_term then
    (nd, .VoteResponse nd.current_term false, false)
  else
    let nd := if nd.current_term < term then become_follower nd term else nd
    let can_vote := nd.voted_for.isNone || nd.voted_for == some candidate_id
    let log_ok := is_log_up_to_date nd cand_last_index cand_last_term
    let vote_granted := can_vote && log_ok
    let nd := if vote_granted then { nd with voted_for := some candidate_id } else nd
    (nd, .VoteResponse nd.current_term vote_granted, vote_granted)

/-- `RaftNode::handle_vote_response`. Returns the new node state and whether
the node just became leader. -/
def handle_vote_response (nd : RaftNode) (term : Nat) (vote_granted : Bool) (sender : Nat) :
    RaftNode × Bool :=
  if nd.current_term < term then (become_follower nd term, false)
  else if nd.state ≠ .Candidate then (nd, false)
  else if term ≠ nd.current_term then (nd, false)
  else if vote_granted && !(nd.votes_received.contains sender) then
    let nd := { nd with votes_received := nd.votes_received ++ [sender] }
    if has_quorum nd then (become_leader nd, true) else (nd, false)
  else (nd, false)

/-- `RaftNode::create_append_entries`: per-follower replication message. -/
def create_append_entries (nd : RaftNode) (follower_id : Nat) : Option RaftMessage :=
  if nd.state ≠ .Leader then none
  else
    match alistGet nd.next_index follower_id with
    | none => none
    | some next_idx =>
      let prev_log_index := if 1 < next_idx then next_idx - 1 else 0
      let prev_log_term := get_term_at nd prev_log_index
      let entries := nd.log.filter (fun e => decide (next_idx ≤ e.index))
      some (.AppendEntries nd.current_term nd.id prev_log_index prev_log_term
              entries nd.commit_index)

/-- `RaftNode::create_heartbeat`: a single empty AppendEntries whose prev
coordinates are the leader's own last log position (not per-peer). -/
def create_heartbeat (nd : RaftNode) : Option RaftMessage :=
  if nd.state ≠ .Leader then none
  else
    some (.AppendEntries nd.current_term nd.id (last_log_index nd)
            (last_log_term nd) [] nd.commit_index)

/-- One iteration of the entries loop in `RaftNode::handle_append_entries`:
truncate on a term conflict at the entry's index, then append if absent. -/
def mergeStep (log : List LogEntry) (entry : LogEntry) : List LogEntry :=
  let log :=
    match logGetEntry log entry.index with
    | some existing =>
        if existing.term ≠ entry.term then
          log.filter (fun e => decide (e.index < entry.index))
        else log
    | none => log
  if (logGetEntry log entry.index).isNone then log ++ [entry] else log

/-- `RaftNode::handle_append_entries`. Returns the new node state, the
AppendEntriesResponse, and the should-reset-election-timer flag. -/
def handle_append_entries (nd : RaftNode) (term leader_id prev_log_index prev_log_term : Nat)
    (entries : List LogEntry) (leader_commit : Nat) : RaftNode × RaftMessage × Bool :=
  if term < nd.current_term then
    (nd, .AppendEntriesResponse nd.current_term false, false)
  else
    let nd := if nd.current_term ≤ term then become_follower nd term else nd
    let log_consistent :=
      if prev_log_index = 0 then true
      else get_term_at nd prev_log_index == prev_log_term
    if !log_consistent then
      (nd, .AppendEntriesResponse nd.current_term false, true)
    else
      let nd := { nd with log := entries.foldl mergeStep nd.log }
      let nd :=
        if nd.commit_index < leader_commit then
          { nd with commit_index := min leader_commit (last_log_index nd) }
        else nd
      (nd, .AppendEntriesResponse nd.current_term true, true)

/-- The replica count for index `n` in `RaftNode::try_advance_commit_index`:
the leader itself plus every peer in `match_index` at or beyond `n`. -/
def supportCount (nd : RaftNode) (n : Nat) : Nat :=
  1 + nd.match_index.countP (fun p => p.1 != nd.id && decide (n ≤ p.2))

/-- One iteration of the loop in `RaftNode::try_advance_commit_index`. -/
def advanceStep (st : RaftNode) (n : Nat) : RaftNode :=
  if get_term_at st n ≠ st.current_term then st
  else if quorum_size st ≤ supportCount st n then { st with commit_index := n }
  else st

/-- `RaftNode::try_advance_commit_index`: scan (commit_index, last_log_index]
and take each index with the current term replicated on a quorum. Returns the
new state and whether commit_index advanced. -/
def try_advance_commit_index (nd : RaftNode) : RaftNode × Bool :=
  let old_commit := nd.commit_index
  let idxs := List.range' (nd.commit_index + 1) (last_log_index nd - nd.commit_index)
  let nd := idxs.foldl advanceStep nd
  (nd, decide (old_commit < nd.commit_index))

/-- `RaftNode::handle_append_entries_response`. Returns the new node state and
whether commit_index advanced. -/
def handle_append_entries_response (nd : RaftNode) (term : Nat) (success : Bool)
    (sender : Nat) (match_index_hint : Nat) : RaftNode × Bool :=
  if nd.current_term < term then (become_follower nd term, false)
  else if nd.state ≠ .Leader then (nd, false)
  else if success then
    let nd := { nd with next_index := alistSet nd.next_index sender (match_index_hint + 1) }
    let nd := { nd with match_index := alistSet nd.match_index sender match_index_hint }
    try_advance_commit_index nd
  else
    match alistGet nd.next_index sender with
    | some next =>
        if 1 < next then
          ({ nd with next_index := alistSet nd.next_index sender (next - 1) }, false)
        else (nd, false)
    | none => (nd, false)

/-- The while-loop of `RaftNode::get_entries_to_apply`: starting from
`last_applied`, step towards `commit_index`, collecting the entry at each
index that is present in the log. Returns the final `last_applied` and the
entries. The loop runs exactly `ci - la` times, which the caller passes as
the structural `fuel` argument. -/
def applyFrom (log : List LogEntry) (fuel la ci : Nat) : Nat × List LogEntry :=
  match fuel with
  | 0 => (la, [])
  | fuel + 1 =>
    if la < ci then
      let next := la + 1
      let rest := applyFrom log fuel next ci
      match logGetEntry log next with
      | some e => (rest.1, e :: rest.2)
      | none => rest
    else (la, [])

/-- `RaftNode::get_entries_to_apply`. -/
def get_entries_to_apply (nd : RaftNode) : RaftNode × List LogEntry :=
  let r := applyFrom nd.log (nd.commit_index - nd.last_applied)
    nd.last_applied nd.commit_index
  ({ nd with last_applied := r.1 }, r.2)

/-- Modelled from the spec: `RaftNode::handle_prevote_request` is invoked by
src/crates/raft-wasm/src/lib.rs `on_message` but its body is absent from
src/crates/raft-core. Per spec section 4.3 the recipient grants iff the
hypothetical term is at least its current term, the candidate's log is at
least as up-to-date, and it has not heard from a valid leader within the last
election timeout (`heard_from_leader`, known to the host). The probe is
non-state-changing. -/
def handle_prevote_request (nd : RaftNode) (term candidate_id cand_last_index cand_last_term : Nat)
    (heard_from_leader : Bool) : RaftNode × RaftMessage × Bool :=
  let granted := decide (nd.current_term ≤ term) &&
    is_log_up_to_date nd cand_last_index cand_last_term && !heard_from_leader
  let _ := candidate_id
  (nd, .PreVoteResponse nd.current_term granted, false)

/-- Modelled from the spec: `RaftNode::handle_prevote_response` is invoked by
src/crates/raft-wasm/src/lib.rs `on_message` but its body is absent from
src/crates/raft-core. Per spec section 4.3 it tallies grants and reports
whether a quorum of pre-votes (counting the node's own implicit grant) has
been collected, in which case the host performs `start_election`; it does not
increment current_term, does not change voted_for, and does not transition to
Candidate, even when the response carries a higher term (advisory only). -/
def handle_prevote_response (nd : RaftNode) (term : Nat) (vote_granted : Bool)
    (sender : Nat) : RaftNode × Bool :=
  let _ := term
  let nd :=
    if vote_granted && !(nd.prevotes_received.contains sender) then
      { nd with prevotes_received := nd.prevotes_received ++ [sender] }
    else nd
  (nd, decide (quorum_size nd ≤ nd.prevotes_received.length + 1))

/-- Extract the `success` flag of an AppendEntriesResponse. -/
def respSuccess : RaftMessage → Bool
  | .AppendEntriesResponse _ s => s
  | _ => false

/-- A handler invocation, for stating properties of arbitrary sequences. -/
inductive Event where
  | voteRequest (term candidate_id cand_last_index cand_last_term : Nat)
  | voteResponse (term : Nat) (granted : Bool) (sender : Nat)
  | appendEntriesMsg (term leader_id prev_log_index prev_log_term : Nat)
      (entries : List LogEntry) (leader_commit : Nat)
  | appendResponse (term : Nat) (success : Bool) (sender : Nat) (hint : Nat)
  | electionTimeout
  | propose (command : List Nat)
  | applyCommitted
  deriving DecidableEq

/-- The state transition of one handler invocation. -/
def step (nd : RaftNode) : Event → RaftNode
  | .voteRequest t c i l => (handle_vote_request nd t c i l).1
  | .voteResponse t g s => (handle_vote_response nd t g s).1
  | .appendEntriesMsg t lid pli plt es lc => (handle_append_entries nd t lid pli plt es lc).1
  | .appendResponse t s sd h => (handle_append_entries_response nd t s sd h).1
  | .electionTimeout => (start_election nd).1
  | .propose c => append_entry nd c
  | .applyCommitted => (get_entries_to_apply nd).1

/-- Whether an event is an incoming AppendEntries message. -/
def Event.isAppend : Event → Bool
  | .appendEntriesMsg _ _ _ _ _ _ => true
  | _ => false

/-- In-memory storage state (src/crates/raft-storage/src/lib.rs,
`InMemoryStorage`). -/
structure InMemoryStorage where
  term : Nat
  voted_for : Option Nat
  log : List LogEntry
  deriving DecidableEq

/-- `InMemoryStorage::append_entries`: extend the stored log. -/
def InMemoryStorage.append_entries (s : InMemoryStorage) (entries : List LogEntry) :
    InMemoryStorage :=
  { s with log := s.log ++ entries }

/-- `InMemoryStorage::load_log`. -/
def InMemoryStorage.load_log (s : InMemoryStorage) : List LogEntry :=
  s.log

/-- Effect of `FileStorage::append_entries` on the persisted log list: an empty
slice returns early, otherwise the file content is loaded, extended, and
rewritten. -/
def fileAppendEntries (persisted : List LogEntry) (entries : List LogEntry) : List LogEntry :=
  if entries.isEmpty then persisted else persisted ++ entries

/-- Modelled from the spec's words (section 4.5 and the glossary), for
comparison with `is_log_up_to_date`: log A is at least as up-to-date as log B
iff A's last term is greater, or the terms tie and A's last index is at least
B's. -/
def specUpToDate (a_last_term a_last_index b_last_term b_last_index : Nat) : Bool :=
  decide (b_last_term < a_last_term) ||
    (a_last_term == b_last_term && decide (b_last_index ≤ a_last_index))

/-- The commit-advancement candidate predicate of the spec (section 4.4): an
index beyond commit_index whose entry exists with the leader's current term
and is replicated on at least a quorum counting the leader. -/
def commitCandidate (nd : RaftNode) (n : Nat) : Prop :=
  nd.commit_index < n ∧
  (∃ e, get_entry nd n = some e ∧ e.term = nd.current_term) ∧
  quorum_size nd ≤ supportCount nd n

/-- The loop guard of `advanceStep` as a boolean predicate. -/
def commitOkB (st : RaftNode) (n : Nat) : Bool :=
  (get_term_at st n == st.current_term) && decide (quorum_size st ≤ supportCount st n)

/-- The last element of a list satisfying `p`, defaulting to `d`. -/
def lastOkD (p : Nat → Bool) (d : Nat) : List Nat → Nat
  | [] => d
  | a :: l => lastOkD p (if p a then a else d) l

/-- A log list is well formed above base `k`: the i-th entry carries index
`k + i + 1`, i.e. indices are consecutive from `k + 1`. A node's own log is
well formed with base 0. -/
def logWF : Nat → List LogEntry → Prop
  | _, [] => True
  | k, e :: l => e.index = k + 1 ∧ logWF (k + 1) l

/-- Modelled from the spec's words (section 4.5), for comparison with the vote
path of `handle_vote_request`: grant iff no conflicting vote stands at the
moment of the check (a strictly higher term first clears the vote) and the
candidate's log is at least as up-to-date in the lexicographic order. -/
def specVoteGranted (nd : RaftNode) (term candidate_id cand_last_index cand_last_term : Nat) :
    Bool :=
  (let vf := if nd.current_term < term then none else nd.voted_for
   vf.isNone || vf == some candidate_id) &&
  specUpToDate cand_last_term cand_last_index (last_log_term nd) (last_log_index nd)

end Raft

namespace Raft

/-! Helper lemmas. -/

/-- With enough fuel, the final `last_applied` of `applyFrom` reaches `ci`
whenever it starts at or below `ci`. -/
theorem applyFrom_fst :
    ∀ (fuel : Nat) (log : List LogEntry) (la ci : Nat), ci - la ≤ fuel → la ≤ ci →
      (applyFrom log fuel la ci).1 = ci := by
  intro fuel
  induction fuel with
  | zero =>
    intro log la ci hn hle
    have : la = ci := by omega
    simp [applyFrom, this]
  | succ k ih =>
    intro log la ci hn hle
    by_cases hlt : la < ci
    · rw [applyFrom, if_pos hlt]
      have := ih log (la + 1) ci (by omega) (by omega)
      cases hfind : logGetEntry log (la + 1) <;> simp [hfind, this]
    · have : la = ci := by omega
      rw [applyFrom, if_neg hlt]
      exact this

/-- The final `last_applied` of `applyFrom` never decreases. -/
theorem applyFrom_fst_ge :
    ∀ (fuel : Nat) (log : List LogEntry) (la ci : Nat), la ≤ (applyFrom log fuel la ci).1 := by
  intro fuel
  induction fuel with
  | zero => intro log la ci; simp [applyFrom]
  | succ k ih =>
    intro log la ci
    rw [applyFrom]
    by_cases hlt : la < ci
    · rw [if_pos hlt]
      have := ih log (la + 1) ci
      cases hfind : logGetEntry log (la + 1) <;> simp [hfind] <;> omega
    · rw [if_neg hlt]

/-- The entries collected by `applyFrom` are exactly the log entries found at
the scanned indices, in scan order. -/
theorem applyFrom_snd :
    ∀ (fuel : Nat) (log : List LogEntry) (la ci : Nat), ci - la ≤ fuel →
      (applyFrom log fuel la ci).2 =
        (List.range' (la + 1) (ci - la)).filterMap (fun i => logGetEntry log i) := by
  intro fuel
  induction fuel with
  | zero =>
    intro log la ci hn
    have : ci - la = 0 := by omega
    simp [applyFrom, this]
  | succ k ih =>
    intro log la ci hn
    by_cases hlt : la < ci
    · rw [applyFrom, if_pos hlt]
      have hci : ci - la = (ci - (la + 1)) + 1 := by omega
      rw [hci, List.range'_succ]
      have := ih log (la + 1) ci (by omega)
      cases hfind : logGetEntry log (la + 1) <;>
        simp [hfind, this, List.filterMap_cons]
    · rw [applyFrom, if_neg hlt]
      have : ci - la = 0 := by omega
      simp [this]

/-! Claim theorems. -/

/-- Claim C1 (code bug, demonstrated): a node grants its term-1 vote to
candidate 2, then a `handle_append_entries` with term equal to current_term
runs `become_follower`, whose unconditional reset clears `voted_for` to none
without changing `current_term`; a second `handle_vote_request` in the same
term then grants to candidate 3 as well — two granted votes in term 1,
contradicting vote uniqueness. -/
theorem vote_uniqueness_violated :
    (handle_vote_request (RaftNode.new 1 [1, 2, 3]) 1 2 0 0).2.1 =
        .VoteResponse 1 true ∧
    (handle_vote_request (RaftNode.new 1 [1, 2, 3]) 1 2 0 0).1.voted_for = some 2 ∧
    (handle_append_entries
        (handle_vote_request (RaftNode.new 1 [1, 2, 3]) 1 2 0 0).1
        1 5 0 0 [] 0).1.current_term = 1 ∧
    (handle_append_entries
        (handle_vote_request (RaftNode.new 1 [1, 2, 3]) 1 2 0 0).1
        1 5 0 0 [] 0).1.voted_for = none ∧
    (handle_vote_request
        (handle_append_entries
          (handle_vote_request (RaftNode.new 1 [1, 2, 3]) 1 2 0 0).1
          1 5 0 0 [] 0).1
        1 3 0 0).2.1 = .VoteResponse 1 true ∧
    (handle_vote_request
        (handle_append_entries
          (handle_vote_request (RaftNode.new 1 [1, 2, 3]) 1 2 0 0).1
          1 5 0 0 [] 0).1
        1 3 0 0).1.voted_for = some 3 := by
  decide

/-- Claim C3 (code bug, demonstrated): a leader of term 2 (elected after two
election timeouts) with one own-term entry processes an
AppendEntriesResponse carrying the stale term 1 with success true; the
handler has no stale-term guard, so it rewrites next_index and match_index
for the sender and even advances commit_index from 0 to 1, where the claim
requires the call to be ignored. -/
theorem stale_append_response_processed :
    (append_entry
        (handle_vote_response
          (start_election (start_election (RaftNode.new 1 [1, 2, 3])).1).1
          2 true 2).1 [120]).current_term = 2 ∧
    (append_entry
        (handle_vote_response
          (start_election (start_election (RaftNode.new 1 [1, 2, 3])).1).1
          2 true 2).1 [120]).state = .Leader ∧
    (append_entry
        (handle_vote_response
          (start_election (start_election (RaftNode.new 1 [1, 2, 3])).1).1
          2 true 2).1 [120]).commit_index = 0 ∧
    alistGet (append_entry
        (handle_vote_response
          (start_election (start_election (RaftNode.new 1 [1, 2, 3])).1).1
          2 true 2).1 [120]).match_index 2 = some 0 ∧
    (handle_append_entries_response
        (append_entry
          (handle_vote_response
            (start_election (start_election (RaftNode.new 1 [1, 2, 3])).1).1
            2 true 2).1 [120])
        1 true 2 1).1.commit_index = 1 ∧
    alistGet (handle_append_entries_response
        (append_entry
          (handle_vote_response
            (start_election (start_election (RaftNode.new 1 [1, 2, 3])).1).1
            2 true 2).1 [120])
        1 true 2 1).1.match_index 2 = some 1 ∧
    alistGet (handle_append_entries_response
        (append_entry
          (handle_vote_response
            (start_election (start_election (RaftNode.new 1 [1, 2, 3])).1).1
            2 true 2).1 [120])
        1 true 2 1).1.next_index 2 = some 2 := by
  decide

/-- Claim C2, counterexample: two adversarial-but-accepted AppendEntries
sequences from a fresh node. Sequence a: after conflict truncation with a
small leader_commit, commit_index 2 exceeds last_log_index 1. Sequence b:
after draining (last_applied 2), a conflict-truncating AppendEntries with
leader_commit 3 re-caps commit_index down to 1, so commit_index decreases and
drops below last_applied. -/
theorem commit_invariants_violated :
    (handle_append_entries (RaftNode.new 1 [1, 2, 3])
        1 2 0 0 [⟨1, 1, []⟩, ⟨1, 2, []⟩] 2).1.commit_index = 2 ∧
    (handle_append_entries
        (handle_append_entries (RaftNode.new 1 [1, 2, 3])
          1 2 0 0 [⟨1, 1, []⟩, ⟨1, 2, []⟩] 2).1
        2 3 0 0 [⟨2, 1, []⟩] 0).1.commit_index = 2 ∧
    last_log_index (handle_append_entries
        (handle_append_entries (RaftNode.new 1 [1, 2, 3])
          1 2 0 0 [⟨1, 1, []⟩, ⟨1, 2, []⟩] 2).1
        2 3 0 0 [⟨2, 1, []⟩] 0).1 = 1 ∧
    (get_entries_to_apply
        (handle_append_entries (RaftNode.new 1 [1, 2, 3])
          1 2 0 0 [⟨1, 1, []⟩, ⟨1, 2, []⟩] 2).1).1.last_applied = 2 ∧
    (handle_append_entries
        (get_entries_to_apply
          (handle_append_entries (RaftNode.new 1 [1, 2, 3])
            1 2 0 0 [⟨1, 1, []⟩, ⟨1, 2, []⟩] 2).1).1
        2 3 0 0 [⟨2, 1, []⟩] 3).1.commit_index = 1 ∧
    (handle_append_entries
        (get_entries_to_apply
          (handle_append_entries (RaftNode.new 1 [1, 2, 3])
            1 2 0 0 [⟨1, 1, []⟩, ⟨1, 2, []⟩] 2).1).1
        2 3 0 0 [⟨2, 1, []⟩] 3).1.last_applied = 2 := by
  decide

/-- Claim C6, counterexample: a term-1 leader with two pending entries and
next_index of peer 2 still at 1. The periodic `create_heartbeat` carries
prev_log_index 2 (its own last index, not next_index[2]-1 = 0) and an empty
entries list even though entries with index at or beyond next_index[2] are
pending; the per-peer coordinates appear only in `create_append_entries`. -/
theorem heartbeat_not_per_peer :
    alistGet (append_entry (append_entry
        (handle_vote_response (start_election (RaftNode.new 1 [1, 2, 3])).1 1 true 2).1
        [97]) [98]).next_index 2 = some 1 ∧
    create_heartbeat (append_entry (append_entry
        (handle_vote_response (start_election (RaftNode.new 1 [1, 2, 3])).1 1 true 2).1
        [97]) [98]) =
      some (.AppendEntries 1 1 2 1 [] 0) ∧
    create_append_entries (append_entry (append_entry
        (handle_vote_response (start_election (RaftNode.new 1 [1, 2, 3])).1 1 true 2).1
        [97]) [98]) 2 =
      some (.AppendEntries 1 1 0 0 [⟨1, 1, [97]⟩, ⟨1, 2, [98]⟩] 0) ∧
    (2 : Nat) ≠ 1 - 1 := by
  decide

/-- Claim C7, counterexample: a follower holding log [(t1,i1),(t1,i2)] accepts
an AppendEntries whose entries list [(t1,i2),(t2,i1)] is not index-ascending;
the first delivery succeeds and leaves log [(t2,i1)], but redelivering the
identical message appends (t1,i2) again, leaving log [(t2,i1),(t1,i2)] — the
log changed after the second delivery. -/
theorem append_entries_not_idempotent :
    respSuccess (handle_append_entries (RaftNode.new 1 [1, 2, 3])
        1 2 0 0 [⟨1, 1, []⟩, ⟨1, 2, []⟩] 0).2.1 = true ∧
    respSuccess (handle_append_entries
        (handle_append_entries (RaftNode.new 1 [1, 2, 3])
          1 2 0 0 [⟨1, 1, []⟩, ⟨1, 2, []⟩] 0).1
        2 3 0 0 [⟨1, 2, []⟩, ⟨2, 1, []⟩] 0).2.1 = true ∧
    (handle_append_entries
        (handle_append_entries (RaftNode.new 1 [1, 2, 3])
          1 2 0 0 [⟨1, 1, []⟩, ⟨1, 2, []⟩] 0).1
        2 3 0 0 [⟨1, 2, []⟩, ⟨2, 1, []⟩] 0).1.log = [⟨2, 1, []⟩] ∧
    (handle_append_entries
        (handle_append_entries
          (handle_append_entries (RaftNode.new 1 [1, 2, 3])
            1 2 0 0 [⟨1, 1, []⟩, ⟨1, 2, []⟩] 0).1
          2 3 0 0 [⟨1, 2, []⟩, ⟨2, 1, []⟩] 0).1
        2 3 0 0 [⟨1, 2, []⟩, ⟨2, 1, []⟩] 0).1.log = [⟨2, 1, []⟩, ⟨1, 2, []⟩] := by
  decide

/-- Claim C8: PreVote processing never changes current_term, never changes
voted_for, and never moves the node's role (in particular not to Candidate),
for every hypothetical term carried by the message. The request handler is a
pure probe; the response handler only tallies grants. -/
theorem prevote_term_immunity (nd : RaftNode)
    (term candidate_id cand_last_index cand_last_term sender : Nat) (g hb : Bool) :
    (handle_prevote_request nd term candidate_id cand_last_index cand_last_term hb).1 = nd ∧
    (handle_prevote_response nd term g sender).1.current_term = nd.current_term ∧
    (handle_prevote_response nd term g sender).1.voted_for = nd.voted_for ∧
    (handle_prevote_response nd term g sender).1.state = nd.state := by
  refine ⟨rfl, ?_, ?_, ?_⟩ <;>
    (unfold handle_prevote_response; dsimp only; split <;> rfl)

/-- Claim C9, counterexample: appending the singleton slice E twice to an
empty in-memory store leaves two copies of E in the log, not one. -/
theorem storage_append_not_idempotent :
    ((InMemoryStorage.mk 0 none []).append_entries [⟨1, 1, [42]⟩]).append_entries
        [⟨1, 1, [42]⟩] ≠
      (InMemoryStorage.mk 0 none []).append_entries [⟨1, 1, [42]⟩] ∧
    (((InMemoryStorage.mk 0 none []).append_entries [⟨1, 1, [42]⟩]).append_entries
        [⟨1, 1, [42]⟩]).load_log = [⟨1, 1, [42]⟩, ⟨1, 1, [42]⟩] := by
  decide

/-- Claim C9, amended: `append_entries` is a plain append, not idempotent — a
second identical call with a non-empty slice E appends a second copy, so the
persisted log ends in E ++ E and differs from the single-call state; the
load-extend-rewrite of FileStorage has the same effect on the persisted
list. -/
theorem storage_append_appends_twice (s : InMemoryStorage)
    (persisted E : List LogEntry) (hE : E ≠ []) :
    ((s.append_entries E).append_entries E).load_log = s.log ++ (E ++ E) ∧
    (s.append_entries E).append_entries E ≠ s.append_entries E ∧
    fileAppendEntries (fileAppendEntries persisted E) E = persisted ++ (E ++ E) := by
  refine ⟨?_, ?_, ?_⟩
  · simp [InMemoryStorage.append_entries, InMemoryStorage.load_log]
  · intro hcontra
    have hlen := congrArg (fun t => t.log.length) hcontra
    simp [InMemoryStorage.append_entries] at hlen
    exact hE hlen
  · cases E with
    | nil => exact absurd rfl hE
    | cons a t => simp [fileAppendEntries]

/-- Witness for `storage_append_appends_twice` at a concrete store and slice. -/
theorem storage_append_appends_twice_witness :
    (((InMemoryStorage.mk 0 none []).append_entries [⟨1, 1, [42]⟩]).append_entries
        [⟨1, 1, [42]⟩]).load_log = [] ++ ([⟨1, 1, [42]⟩] ++ [⟨1, 1, [42]⟩]) :=
  (storage_append_appends_twice (InMemoryStorage.mk 0 none []) [] [⟨1, 1, [42]⟩]
    (by decide)).1

/-- Claim C10: whenever last_applied < commit_index, `get_entries_to_apply`
advances last_applied all the way to commit_index even across indices absent
from the log; the returned list holds exactly the entries found at the
scanned indices (missing ones are silently skipped, so it can be shorter than
commit_index - last_applied), and a second call returns the empty list. -/
theorem drain_always_reaches_commit (nd : RaftNode)
    (h : nd.last_applied < nd.commit_index) :
    (get_entries_to_apply nd).1.last_applied = nd.commit_index ∧
    (get_entries_to_apply (get_entries_to_apply nd).1).2 = [] ∧
    (get_entries_to_apply nd).2 =
      (List.range' (nd.last_applied + 1) (nd.commit_index - nd.last_applied)).filterMap
        (fun i => logGetEntry nd.log i) := by
  have h1 : (applyFrom nd.log (nd.commit_index - nd.last_applied)
      nd.last_applied nd.commit_index).1 = nd.commit_index :=
    applyFrom_fst (nd.commit_index - nd.last_applied) nd.log nd.last_applied
      nd.commit_index le_rfl h.le
  refine ⟨h1, ?_,
    applyFrom_snd (nd.commit_index - nd.last_applied) nd.log nd.last_applied
      nd.commit_index le_rfl⟩
  show (applyFrom _ (nd.commit_index - (applyFrom nd.log (nd.commit_index - nd.last_applied)
      nd.last_applied nd.commit_index).1) _ _).2 = []
  rw [h1]
  simp [applyFrom]

/-- Witness for `drain_always_reaches_commit`: a node with commit_index 2
whose log holds only index 2; the drain advances last_applied to 2 while
skipping the missing index 1. -/
theorem drain_always_reaches_commit_witness :
    (get_entries_to_apply
        { RaftNode.new 1 [1, 2, 3] with log := [⟨1, 2, []⟩], commit_index := 2 }).1.last_applied
      = 2 :=
  (drain_always_reaches_commit
    { RaftNode.new 1 [1, 2, 3] with log := [⟨1, 2, []⟩], commit_index := 2 }
    (by decide)).1

/-- The source's up-to-date check coincides with the spec's lexicographic
comparison of (last term, last index) pairs. -/
theorem is_log_up_to_date_eq_spec (nd : RaftNode) (cand_last_index cand_last_term : Nat) :
    is_log_up_to_date nd cand_last_index cand_last_term =
      specUpToDate cand_last_term cand_last_index (last_log_term nd) (last_log_index nd) := by
  unfold is_log_up_to_date specUpToDate
  by_cases h : cand_last_term = last_log_term nd
  · subst h
    simp
  · simp [h]

/-- Claim C6, amended: the per-peer replication message of
`create_append_entries` carries prev_log_index = next_index[peer]-1, the term
at that index, all log entries with index at or beyond next_index[peer], and
leader_commit = commit_index; the periodic `create_heartbeat`, by contrast,
is a single peer-independent message whose prev coordinates are the leader's
own last log position with an always-empty entries list. -/
theorem replication_message_shape (nd : RaftNode) (follower_id nxt : Nat)
    (hL : nd.state = .Leader) (hnx : alistGet nd.next_index follower_id = some nxt) :
    create_append_entries nd follower_id =
      some (.AppendEntries nd.current_term nd.id (nxt - 1) (get_term_at nd (nxt - 1))
        (nd.log.filter (fun e => decide (nxt ≤ e.index))) nd.commit_index) ∧
    create_heartbeat nd =
      some (.AppendEntries nd.current_term nd.id (last_log_index nd) (last_log_term nd)
        [] nd.commit_index) := by
  have hprev : (if 1 < nxt then nxt - 1 else 0) = nxt - 1 := by
    split <;> omega
  constructor
  · unfold create_append_entries
    rw [hnx]
    simp [hL, hprev]
  · unfold create_heartbeat
    simp [hL]

/-- Witness for `replication_message_shape`: a concrete term-1 leader with
two pending entries for peer 2 (next_index[2] = 1). -/
theorem replication_message_shape_witness :
    create_append_entries (append_entry (append_entry
        (handle_vote_response (start_election (RaftNode.new 1 [1, 2, 3])).1 1 true 2).1
        [97]) [98]) 2 =
      some (.AppendEntries 1 1 0 0 [⟨1, 1, [97]⟩, ⟨1, 2, [98]⟩] 0) :=
  (replication_message_shape (append_entry (append_entry
      (handle_vote_response (start_election (RaftNode.new 1 [1, 2, 3])).1 1 true 2).1
      [97]) [98]) 2 1 (by decide) (by decide)).1

/-- Claim C5: for a vote request with term at least the receiver's, the vote
is granted iff no conflicting vote stands at the point of the check (a
strictly higher term clears voted_for first, per the handler's step order)
and the candidate's (last term, last index) pair is at least the receiver's
lexicographically; on grant, voted_for is set to the candidate and the
election-timer reset is signalled. -/
theorem vote_grant_rule (nd : RaftNode) (term candidate_id cand_last_index cand_last_term : Nat)
    (h : nd.current_term ≤ term) :
    (handle_vote_request nd term candidate_id cand_last_index cand_last_term).2.1 =
      .VoteResponse term (specVoteGranted nd term candidate_id cand_last_index cand_last_term) ∧
    (specVoteGranted nd term candidate_id cand_last_index cand_last_term = true →
      (handle_vote_request nd term candidate_id cand_last_index cand_last_term).1.voted_for =
          some candidate_id ∧
      (handle_vote_request nd term candidate_id cand_last_index cand_last_term).2.2 = true) := by
  have hnl : ¬ term < nd.current_term := by omega
  have hbf : ∀ a b, is_log_up_to_date (become_follower nd term) a b =
      is_log_up_to_date nd a b := fun a b => rfl
  unfold handle_vote_request specVoteGranted
  rw [if_neg hnl]
  by_cases h2 : nd.current_term < term
  · simp only [if_pos h2, hbf, is_log_up_to_date_eq_spec]
    simp only [become_follower, Option.isNone_none, Bool.true_or, Bool.true_and]
    constructor
    · split <;> rfl
    · intro hg
      simp [hg]
  · simp only [if_neg h2, is_log_up_to_date_eq_spec]
    have he : nd.current_term = term := by omega
    constructor
    · split <;> simp [he]
    · intro hg
      simp [hg]

/-- Witness for `vote_grant_rule`: a fresh node granting its vote to
candidate 2 in term 1. -/
theorem vote_grant_rule_witness :
    (handle_vote_request (RaftNode.new 1 [1, 2, 3]) 1 2 0 0).2.1 =
      .VoteResponse 1 (specVoteGranted (RaftNode.new 1 [1, 2, 3]) 1 2 0 0) :=
  (vote_grant_rule (RaftNode.new 1 [1, 2, 3]) 1 2 0 0 (by decide)).1

/-- One iteration of the commit-advancement loop either leaves the state
alone or sets commit_index to the scanned index, according to the loop
guard. -/
theorem advanceStep_eq (st : RaftNode) (n : Nat) :
    advanceStep st n = if commitOkB st n then { st with commit_index := n } else st := by
  unfold advanceStep commitOkB
  by_cases h1 : get_term_at st n = st.current_term
  · by_cases h2 : quorum_size st ≤ supportCount st n
    · simp [h1, h2]
    · simp [h1, h2]
  · simp [h1, beq_iff_eq]

/-- The commit-advancement fold only rewrites commit_index: it ends at the
last scanned index satisfying the loop guard, defaulting to the start
value. -/
theorem foldl_advanceStep :
    ∀ (l : List Nat) (st : RaftNode),
      l.foldl advanceStep st =
        { st with commit_index := lastOkD (commitOkB st) st.commit_index l } := by
  intro l
  induction l with
  | nil => intro st; rfl
  | cons a l ih =>
    intro st
    show l.foldl advanceStep (advanceStep st a) = _
    rw [advanceStep_eq]
    cases h : commitOkB st a
    · rw [if_neg (by simp [h]), ih]
      show _ = { st with commit_index := lastOkD (commitOkB st) (if commitOkB st a then a else st.commit_index) l }
      rw [if_neg (by simp [h])]
    · rw [if_pos (by simp [h]), ih]
      show _ = { st with commit_index := lastOkD (commitOkB st) (if commitOkB st a then a else st.commit_index) l }
      rw [if_pos (by simp [h])]
      rfl

/-- Over an ascending index range, `lastOkD` returns either its default or
the largest element satisfying the predicate: the result is in range and
satisfies the predicate unless it is the default, and it dominates every
in-range element that satisfies the predicate. -/
theorem lastOkD_range' (p : Nat → Bool) :
    ∀ (k s d : Nat),
      (lastOkD p d (List.range' s k) = d ∨
        (s ≤ lastOkD p d (List.range' s k) ∧ lastOkD p d (List.range' s k) < s + k ∧
          p (lastOkD p d (List.range' s k)) = true)) ∧
      (∀ n, s ≤ n → n < s + k → p n = true → n ≤ lastOkD p d (List.range' s k)) := by
  intro k
  induction k with
  | zero =>
    intro s d
    refine ⟨Or.inl rfl, ?_⟩
    intro n h1 h2 _
    omega
  | succ k ih =>
    intro s d
    rw [List.range'_succ]
    have hstep : ∀ d', lastOkD p d' (s :: List.range' (s + 1) k) =
        lastOkD p (if p s then s else d') (List.range' (s + 1) k) := fun _ => rfl
    rw [hstep]
    by_cases hps : p s = true
    case neg =>
      rw [if_neg hps]
      have h1 := ih (s + 1) d
      refine ⟨?_, ?_⟩
      · rcases h1.1 with h | ⟨ha, hb, hc⟩
        · exact Or.inl h
        · exact Or.inr ⟨by omega, by omega, hc⟩
      · intro n hn1 hn2 hpn
        by_cases hn : n = s
        · subst hn
          exact absurd hpn hps
        · exact h1.2 n (by omega) (by omega) hpn
    case pos =>
      rw [if_pos hps]
      have h1 := ih (s + 1) s
      refine ⟨?_, ?_⟩
      · rcases h1.1 with h | ⟨ha, hb, hc⟩
        · exact Or.inr ⟨by omega, by omega, by rw [h]; exact hps⟩
        · exact Or.inr ⟨by omega, by omega, hc⟩
      · intro n hn1 hn2 hpn
        by_cases hn : n = s
        · subst hn
          rcases h1.1 with h | ⟨ha, _, _⟩
          · omega
          · omega
        · exact h1.2 n (by omega) (by omega) hpn

/-- In a well-formed log the last entry's index is the base plus the
length. -/
theorem logWF_getLast :
    ∀ (l : List LogEntry) (k : Nat), logWF k l →
      ((l.getLast?.map LogEntry.index).getD k) = k + l.length := by
  intro l
  induction l with
  | nil => intro k _; rfl
  | cons a t ih =>
    intro k h
    obtain ⟨ha, ht⟩ := h
    cases t with
    | nil =>
      have hgl : ([a] : List LogEntry).getLast? = some a := rfl
      rw [hgl]
      simpa using ha
    | cons f t2 =>
      rw [List.getLast?_cons_cons]
      have h2 := ih (k + 1) ht
      cases hgl : (f :: t2).getLast? with
      | none => simp at hgl
      | some x =>
        rw [hgl] at h2
        simp at h2 ⊢
        omega

/-- In a well-formed log every entry's index lies between the base
(exclusive) and base plus length (inclusive). -/
theorem logWF_mem_bound :
    ∀ (l : List LogEntry) (k : Nat), logWF k l →
      ∀ e ∈ l, k < e.index ∧ e.index ≤ k + l.length := by
  intro l
  induction l with
  | nil => intro k _ e he; simp at he
  | cons a t ih =>
    intro k h e he
    obtain ⟨ha, ht⟩ := h
    rcases List.mem_cons.mp he with heq | he2
    · have hlen : (a :: t).length = t.length + 1 := rfl
      rw [heq, ha, hlen]
      omega
    · have hb := ih (k + 1) ht e he2
      have hlen : (a :: t).length = t.length + 1 := rfl
      rw [hlen]
      omega

/-- In a well-formed log, every index between the base (exclusive) and base
plus length (inclusive) is found by the entry lookup. -/
theorem logWF_find :
    ∀ (l : List LogEntry) (k : Nat), logWF k l →
      ∀ N, k < N → N ≤ k + l.length →
        ∃ e, l.find? (fun x => x.index == N) = some e := by
  intro l
  induction l with
  | nil => intro k _ N h1 h2; simp at h2; omega
  | cons a t ih =>
    intro k h N h1 h2
    obtain ⟨ha, ht⟩ := h
    by_cases hN : N = k + 1
    · refine ⟨a, ?_⟩
      rw [List.find?_cons_of_pos]
      simp [ha, hN]
    · have hne : ¬ ((fun x : LogEntry => x.index == N) a = true) := by
        simp [ha]
        omega
      have hrw : List.find? (fun x : LogEntry => x.index == N) (a :: t) =
          List.find? (fun x : LogEntry => x.index == N) t :=
        List.find?_cons_of_neg _ hne
      rw [hrw]
      exact ih (k + 1) ht N (by omega) (by simp at h2; omega)

/-- Claim C4: with a well-formed leader log, `try_advance_commit_index`
leaves commit_index unchanged when no index qualifies, and otherwise moves it
to the largest N > commit_index whose entry exists with term equal to
current_term and is replicated on at least quorum_size nodes counting the
leader itself; in particular an entry of a different term is never the new
commit_index. -/
theorem commit_advancement_rule (nd : RaftNode) (hwf : logWF 0 nd.log) :
    (∀ N, commitCandidate nd N → N ≤ (try_advance_commit_index nd).1.commit_index) ∧
    ((try_advance_commit_index nd).1.commit_index = nd.commit_index ∨
      commitCandidate nd (try_advance_commit_index nd).1.commit_index) := by
  have hlen : last_log_index nd = nd.log.length := by
    have := logWF_getLast nd.log 0 hwf
    simpa [last_log_index] using this
  have hc : (try_advance_commit_index nd).1.commit_index =
      lastOkD (commitOkB nd) nd.commit_index
        (List.range' (nd.commit_index + 1) (last_log_index nd - nd.commit_index)) := by
    show ((List.range' (nd.commit_index + 1) (last_log_index nd - nd.commit_index)).foldl
        advanceStep nd).commit_index = _
    rw [foldl_advanceStep]
  have hcand : ∀ N, commitCandidate nd N ↔
      (nd.commit_index < N ∧ N ≤ last_log_index nd ∧ commitOkB nd N = true) := by
    intro N
    constructor
    · rintro ⟨h1, ⟨e, he, hterm⟩, h3⟩
      have hN0 : N ≠ 0 := by omega
      have hfind : nd.log.find? (fun x => x.index == N) = some e := by
        have := he
        unfold get_entry logGetEntry at this
        rwa [if_neg hN0] at this
      have hmem : e ∈ nd.log := List.mem_of_find?_eq_some hfind
      have hidx : e.index = N := by
        have := List.find?_some hfind
        simpa using this
      have hbound := logWF_mem_bound nd.log 0 hwf e hmem
      have hterm2 : get_term_at nd N = nd.current_term := by
        unfold get_term_at logTermAt
        rw [show logGetEntry nd.log N = some e from by
          unfold logGetEntry; rwa [if_neg hN0]]
        simpa using hterm
      refine ⟨h1, by omega, ?_⟩
      simp [commitOkB, hterm2, h3]
    · rintro ⟨h1, h2, h3⟩
      have hN0 : N ≠ 0 := by omega
      have hok := h3
      simp [commitOkB] at hok
      obtain ⟨hterm, hq⟩ := hok
      obtain ⟨e, hfind⟩ := logWF_find nd.log 0 hwf N (by omega) (by omega)
      have hge : get_entry nd N = some e := by
        unfold get_entry logGetEntry
        rwa [if_neg hN0]
      have hterm2 : e.term = nd.current_term := by
        have : get_term_at nd N = e.term := by
          unfold get_term_at logTermAt
          rw [show logGetEntry nd.log N = some e from by
            unfold logGetEntry; rwa [if_neg hN0]]
          rfl
        omega
      exact ⟨h1, ⟨e, hge, hterm2⟩, hq⟩
  have hrange := lastOkD_range' (commitOkB nd) (last_log_index nd - nd.commit_index)
      (nd.commit_index + 1) nd.commit_index
  constructor
  · intro N hN
    obtain ⟨h1, h2, h3⟩ := (hcand N).mp hN
    rw [hc]
    exact hrange.2 N (by omega) (by omega) h3
  · rw [hc]
    rcases hrange.1 with h | ⟨ha, hb, hok⟩
    · exact Or.inl h
    · refine Or.inr ((hcand _).mpr ⟨by omega, by omega, hok⟩)

/-- Witness for `commit_advancement_rule`: a term-1 leader of three nodes
with one own-term entry replicated on peer 2; index 1 is a candidate and the
rule forces the new commit_index to at least 1. -/
theorem commit_advancement_rule_witness :
    1 ≤ (try_advance_commit_index
        { RaftNode.new 1 [1, 2, 3] with
          current_term := 1
          log := [⟨1, 1, []⟩]
          state := .Leader
          match_index := [(2, 1), (3, 0)] }).1.commit_index :=
  (commit_advancement_rule
    { RaftNode.new 1 [1, 2, 3] with
      current_term := 1
      log := [⟨1, 1, []⟩]
      state := .Leader
      match_index := [(2, 1), (3, 0)] }
    (by simp [logWF])).1 1
    ⟨by decide, ⟨⟨1, 1, []⟩, by decide, rfl⟩, by decide⟩

/-- The peer-initialization fold of `become_leader` only touches next_index
and match_index. -/
theorem leaderInit_foldl_fields :
    ∀ (l : List Nat) (st : RaftNode) (k : Nat),
      (l.foldl (leaderInitStep k) st).commit_index = st.commit_index ∧
      (l.foldl (leaderInitStep k) st).last_applied = st.last_applied := by
  intro l
  induction l with
  | nil => intro st k; exact ⟨rfl, rfl⟩
  | cons a t ih =>
    intro st k
    have h := ih (leaderInitStep k st a) k
    have hstep : (leaderInitStep k st a).commit_index = st.commit_index ∧
        (leaderInitStep k st a).last_applied = st.last_applied := by
      unfold leaderInitStep
      split <;> exact ⟨rfl, rfl⟩
    exact ⟨h.1.trans hstep.1, h.2.trans hstep.2⟩

/-- `become_leader` preserves commit_index and last_applied. -/
theorem become_leader_ci_la (nd : RaftNode) :
    (become_leader nd).commit_index = nd.commit_index ∧
    (become_leader nd).last_applied = nd.last_applied := by
  unfold become_leader
  exact ⟨(leaderInit_foldl_fields _ _ _).1, (leaderInit_foldl_fields _ _ _).2⟩

/-- `try_advance_commit_index` never lowers commit_index. -/
theorem try_advance_ci_ge (nd : RaftNode) :
    nd.commit_index ≤ (try_advance_commit_index nd).1.commit_index := by
  have hc : (try_advance_commit_index nd).1.commit_index =
      lastOkD (commitOkB nd) nd.commit_index
        (List.range' (nd.commit_index + 1) (last_log_index nd - nd.commit_index)) := by
    show ((List.range' (nd.commit_index + 1) (last_log_index nd - nd.commit_index)).foldl
        advanceStep nd).commit_index = _
    rw [foldl_advanceStep]
  rw [hc]
  have h := (lastOkD_range' (commitOkB nd) (last_log_index nd - nd.commit_index)
      (nd.commit_index + 1) nd.commit_index).1
  rcases h with h | ⟨ha, _, _⟩ <;> omega

/-- `try_advance_commit_index` does not touch last_applied. -/
theorem try_advance_la (nd : RaftNode) :
    (try_advance_commit_index nd).1.last_applied = nd.last_applied := by
  show ((List.range' (nd.commit_index + 1) (last_log_index nd - nd.commit_index)).foldl
      advanceStep nd).last_applied = _
  rw [foldl_advanceStep]

/-- `handle_vote_request` does not touch commit_index or last_applied. -/
theorem hvr_ci_la (nd : RaftNode) (term cid a b : Nat) :
    (handle_vote_request nd term cid a b).1.commit_index = nd.commit_index ∧
    (handle_vote_request nd term cid a b).1.last_applied = nd.last_applied := by
  unfold handle_vote_request
  dsimp only
  repeat' split
  all_goals exact ⟨rfl, rfl⟩

/-- `handle_vote_response` does not touch commit_index or last_applied. -/
theorem hvresp_ci_la (nd : RaftNode) (term : Nat) (g : Bool) (sd : Nat) :
    (handle_vote_response nd term g sd).1.commit_index = nd.commit_index ∧
    (handle_vote_response nd term g sd).1.last_applied = nd.last_applied := by
  unfold handle_vote_response
  dsimp only
  repeat' split
  all_goals first
    | exact ⟨rfl, rfl⟩
    | exact ⟨(become_leader_ci_la _).1, (become_leader_ci_la _).2⟩

/-- `handle_append_entries_response` never lowers commit_index and does not
touch last_applied. -/
theorem haer_ci_la (nd : RaftNode) (term : Nat) (s : Bool) (sd hint : Nat) :
    nd.commit_index ≤ (handle_append_entries_response nd term s sd hint).1.commit_index ∧
    (handle_append_entries_response nd term s sd hint).1.last_applied = nd.last_applied := by
  unfold handle_append_entries_response
  by_cases h1 : nd.current_term < term
  · rw [if_pos h1]
    exact ⟨le_rfl, rfl⟩
  · rw [if_neg h1]
    by_cases h2 : nd.state ≠ .Leader
    · rw [if_pos h2]
      exact ⟨le_rfl, rfl⟩
    · rw [if_neg h2]
      dsimp only
      split
      · exact ⟨try_advance_ci_ge
            { nd with
              next_index := alistSet nd.next_index sd (hint + 1)
              match_index := alistSet nd.match_index sd hint },
          try_advance_la _⟩
      · split
        · split
          · exact ⟨le_rfl, rfl⟩
          · exact ⟨le_rfl, rfl⟩
        · exact ⟨le_rfl, rfl⟩

/-- After the commit-refresh step of `handle_append_entries`, commit_index is
at least the minimum of its previous value and the new last_log_index, and
last_applied is untouched. -/
theorem commit_refresh_bound (X : RaftNode) (lc c0 l0 : Nat)
    (hci : X.commit_index = c0) (hla : X.last_applied = l0) :
    min c0 (last_log_index
        (if X.commit_index < lc then { X with commit_index := min lc (last_log_index X) }
         else X)) ≤
      (if X.commit_index < lc then { X with commit_index := min lc (last_log_index X) }
       else X).commit_index ∧
    (if X.commit_index < lc then { X with commit_index := min lc (last_log_index X) }
     else X).last_applied = l0 := by
  split
  case isTrue h =>
    have h1 : last_log_index { X with commit_index := min lc (last_log_index X) } =
        last_log_index X := rfl
    rw [h1]
    refine ⟨?_, hla⟩
    show min c0 (last_log_index X) ≤ min lc (last_log_index X)
    omega
  case isFalse h =>
    refine ⟨?_, hla⟩
    show min c0 (last_log_index X) ≤ X.commit_index
    omega

/-- In `handle_append_entries`, the new commit_index is at least the minimum
of the old commit_index and the new last_log_index, and last_applied is
untouched. -/
theorem hae_ci_la (nd : RaftNode) (term lid pli plt : Nat) (es : List LogEntry) (lc : Nat) :
    min nd.commit_index
        (last_log_index (handle_append_entries nd term lid pli plt es lc).1) ≤
      (handle_append_entries nd term lid pli plt es lc).1.commit_index ∧
    (handle_append_entries nd term lid pli plt es lc).1.last_applied = nd.last_applied := by
  unfold handle_append_entries
  by_cases h1 : term < nd.current_term
  · rw [if_pos h1]
    exact ⟨Nat.min_le_left _ _, rfl⟩
  · rw [if_neg h1, if_pos (show nd.current_term ≤ term by omega)]
    dsimp only
    cases hcons : (if pli = 0 then true
        else get_term_at (become_follower nd term) pli == plt)
    · simp only [Bool.not_false, if_pos]
      exact ⟨Nat.min_le_left _ _, rfl⟩
    · simp only [Bool.not_true, Bool.false_eq_true, if_neg, if_false]
      exact commit_refresh_bound
        { become_follower nd term with
          log := List.foldl mergeStep (become_follower nd term).log es }
        lc nd.commit_index nd.last_applied rfl rfl

/-- Claim C2, amended: across every handler invocation last_applied never
decreases; commit_index never decreases in any handler other than
handle_append_entries, and even there the new commit_index is at least the
minimum of the old commit_index and the new last_log_index — so the claim's
inequalities can only break when an AppendEntries conflict-truncates the log
below commit_index. -/
theorem step_monotonicity (nd : RaftNode) (e : Event) :
    nd.last_applied ≤ (step nd e).last_applied ∧
    (e.isAppend = false → nd.commit_index ≤ (step nd e).commit_index) ∧
    min nd.commit_index (last_log_index (step nd e)) ≤ (step nd e).commit_index := by
  cases e with
  | voteRequest t c i l =>
    simp only [step, Event.isAppend]
    obtain ⟨hci, hla⟩ := hvr_ci_la nd t c i l
    rw [hci, hla]
    exact ⟨le_rfl, fun _ => le_rfl, Nat.min_le_left _ _⟩
  | voteResponse t g s =>
    simp only [step, Event.isAppend]
    obtain ⟨hci, hla⟩ := hvresp_ci_la nd t g s
    rw [hci, hla]
    exact ⟨le_rfl, fun _ => le_rfl, Nat.min_le_left _ _⟩
  | appendEntriesMsg t lid pli plt es lc =>
    simp only [step, Event.isAppend]
    obtain ⟨hmin, hla⟩ := hae_ci_la nd t lid pli plt es lc
    exact ⟨hla.ge, fun h => absurd h (by decide), hmin⟩
  | appendResponse t s sd hint =>
    simp only [step, Event.isAppend]
    obtain ⟨hci, hla⟩ := haer_ci_la nd t s sd hint
    exact ⟨hla.ge, fun _ => hci, le_trans (Nat.min_le_left _ _) hci⟩
  | electionTimeout =>
    simp only [step, Event.isAppend]
    exact ⟨le_rfl, fun _ => le_rfl, Nat.min_le_left _ _⟩
  | propose c =>
    simp only [step, Event.isAppend]
    exact ⟨le_rfl, fun _ => le_rfl, Nat.min_le_left _ _⟩
  | applyCommitted =>
    simp only [step, Event.isAppend]
    exact ⟨applyFrom_fst_ge _ _ _ _, fun _ => le_rfl, Nat.min_le_left _ _⟩

/-- Witness for `step_monotonicity`: the non-AppendEntries clause applied to
a fresh node firing an election timeout. -/
theorem step_monotonicity_witness :
    (RaftNode.new 1 [1, 2, 3]).commit_index ≤
      (step (RaftNode.new 1 [1, 2, 3]) .electionTimeout).commit_index :=
  (step_monotonicity (RaftNode.new 1 [1, 2, 3]) .electionTimeout).2.1 (by decide)

/-- Index lookup at a matching head. -/
theorem find?_idx_cons_pos (a : LogEntry) (t : List LogEntry) (i : Nat) (h : a.index = i) :
    (a :: t).find? (fun e => e.index == i) = some a := by
  rw [List.find?_cons_of_pos]
  simp [h]

/-- Index lookup skips a non-matching head. -/
theorem find?_idx_cons_neg (a : LogEntry) (t : List LogEntry) (i : Nat) (h : a.index ≠ i) :
    (a :: t).find? (fun e => e.index == i) = t.find? (fun e => e.index == i) := by
  have h2 : ¬ ((fun e : LogEntry => e.index == i) a = true) := by simp [h]
  exact List.find?_cons_of_neg _ h2

/-- Appending an entry of a fresh index makes it the lookup result. -/
theorem find?_idx_append_none (l : List LogEntry) (x : LogEntry) (i : Nat)
    (hl : l.find? (fun e => e.index == i) = none) (hx : x.index = i) :
    (l ++ [x]).find? (fun e => e.index == i) = some x := by
  induction l with
  | nil => exact find?_idx_cons_pos x [] i hx
  | cons a t ih =>
    by_cases hai : a.index = i
    · rw [find?_idx_cons_pos a t i hai] at hl
      cases hl
    · rw [List.cons_append, find?_idx_cons_neg a _ i hai]
      rw [find?_idx_cons_neg a t i hai] at hl
      exact ih hl

/-- Appending an entry of a different index does not disturb a lookup. -/
theorem find?_idx_append_skip (l : List LogEntry) (x : LogEntry) (i : Nat)
    (hx : x.index ≠ i) :
    (l ++ [x]).find? (fun e => e.index == i) = l.find? (fun e => e.index == i) := by
  induction l with
  | nil => exact find?_idx_cons_neg x [] i hx
  | cons a t ih =>
    by_cases hai : a.index = i
    · rw [List.cons_append, find?_idx_cons_pos a _ i hai, find?_idx_cons_pos a t i hai]
    · rw [List.cons_append, find?_idx_cons_neg a _ i hai, find?_idx_cons_neg a t i hai, ih]

/-- Truncating at a cutoff does not disturb lookups strictly below it. -/
theorem find?_idx_filter_lt (l : List LogEntry) (c i : Nat) (h : i < c) :
    (l.filter (fun e => decide (e.index < c))).find? (fun e => e.index == i) =
      l.find? (fun e => e.index == i) := by
  induction l with
  | nil => rfl
  | cons a t ih =>
    by_cases hac : a.index < c
    · rw [List.filter_cons_of_pos (by simpa using hac)]
      by_cases hai : a.index = i
      · rw [find?_idx_cons_pos _ _ _ hai, find?_idx_cons_pos _ _ _ hai]
      · rw [find?_idx_cons_neg _ _ _ hai, find?_idx_cons_neg _ _ _ hai, ih]
    · rw [List.filter_cons_of_neg (by simpa using hac)]
      have hai : a.index ≠ i := by omega
      rw [find?_idx_cons_neg _ _ _ hai, ih]

/-- After truncating at the cutoff, the lookup at the cutoff itself is
empty. -/
theorem find?_idx_filter_self (l : List LogEntry) (c : Nat) :
    (l.filter (fun e => decide (e.index < c))).find? (fun e => e.index == c) = none := by
  rw [List.find?_eq_none]
  intro x hx
  have h2 := (List.mem_filter.mp hx).2
  simp at h2 ⊢
  omega

/-- One merge iteration does not disturb entries strictly below the incoming
entry's index. -/
theorem logGetEntry_mergeStep_below (log : List LogEntry) (f : LogEntry) (i : Nat)
    (h : i < f.index) :
    logGetEntry (mergeStep log f) i = logGetEntry log i := by
  have hne : f.index ≠ i := by omega
  have happend : ∀ l : List LogEntry, logGetEntry (l ++ [f]) i = logGetEntry l i := by
    intro l
    unfold logGetEntry
    by_cases hi0 : i = 0
    · simp [hi0]
    · rw [if_neg hi0, if_neg hi0]
      exact find?_idx_append_skip l f i hne
  have hfilter : logGetEntry (log.filter (fun e => decide (e.index < f.index))) i =
      logGetEntry log i := by
    unfold logGetEntry
    by_cases hi0 : i = 0
    · simp [hi0]
    · rw [if_neg hi0, if_neg hi0]
      exact find?_idx_filter_lt log f.index i h
  unfold mergeStep
  dsimp only
  cases hfound : logGetEntry log f.index with
  | none =>
    dsimp only
    rw [hfound]
    simp only [Option.isNone_none]
    rw [if_pos trivial]
    exact happend log
  | some existing =>
    dsimp only
    by_cases hterm : existing.term = f.term
    · have hcond : ¬ (existing.term ≠ f.term) := by simp [hterm]
      rw [if_neg hcond, hfound]
      simp only [Option.isNone_some, Bool.false_eq_true, if_false]
    · rw [if_pos hterm]
      have hf0 : f.index ≠ 0 := by omega
      have h2 : logGetEntry (log.filter (fun e => decide (e.index < f.index))) f.index =
          none := by
        unfold logGetEntry
        rw [if_neg hf0]
        exact find?_idx_filter_self log f.index
      rw [h2]
      simp only [Option.isNone_none]
      rw [if_pos trivial]
      rw [happend _]
      exact hfilter

/-- After one merge iteration the log holds an entry at the incoming index
whose term is the incoming term. -/
theorem logGetEntry_mergeStep_self (log : List LogEntry) (f : LogEntry) (hf : f.index ≠ 0) :
    ∃ x, logGetEntry (mergeStep log f) f.index = some x ∧ x.term = f.term := by
  unfold mergeStep
  dsimp only
  cases hfound : logGetEntry log f.index with
  | none =>
    dsimp only
    rw [hfound]
    simp only [Option.isNone_none]
    rw [if_pos trivial]
    have hl : log.find? (fun e => e.index == f.index) = none := by
      have h2 := hfound
      unfold logGetEntry at h2
      rwa [if_neg hf] at h2
    refine ⟨f, ?_, rfl⟩
    unfold logGetEntry
    rw [if_neg hf]
    exact find?_idx_append_none log f f.index hl rfl
  | some existing =>
    dsimp only
    by_cases hterm : existing.term = f.term
    · have hcond : ¬ (existing.term ≠ f.term) := by simp [hterm]
      rw [if_neg hcond, hfound]
      simp only [Option.isNone_some, Bool.false_eq_true, if_false]
      exact ⟨existing, hfound, hterm⟩
    · rw [if_pos hterm]
      have h2 : logGetEntry (log.filter (fun e => decide (e.index < f.index))) f.index =
          none := by
        unfold logGetEntry
        rw [if_neg hf]
        exact find?_idx_filter_self log f.index
      rw [h2]
      simp only [Option.isNone_none]
      rw [if_pos trivial]
      refine ⟨f, ?_, rfl⟩
      unfold logGetEntry
      rw [if_neg hf]
      exact find?_idx_append_none _ f f.index (find?_idx_filter_self log f.index) rfl

/-- The merge fold does not disturb entries strictly below every incoming
index. -/
theorem logGetEntry_mergeList_below :
    ∀ (es log : List LogEntry) (i : Nat),
      (∀ e ∈ es, i < e.index) →
      logGetEntry (es.foldl mergeStep log) i = logGetEntry log i := by
  intro es
  induction es with
  | nil => intro log i _; rfl
  | cons f rest ih =>
    intro log i h
    show logGetEntry (rest.foldl mergeStep (mergeStep log f)) i = _
    rw [ih (mergeStep log f) i (fun e he => h e (List.mem_cons_of_mem f he)),
      logGetEntry_mergeStep_below log f i (h f (List.mem_cons_self f rest))]

/-- A merge iteration whose entry is already present with the same term is a
no-op. -/
theorem mergeStep_noop (log : List LogEntry) (f : LogEntry)
    (h : ∃ x, logGetEntry log f.index = some x ∧ x.term = f.term) :
    mergeStep log f = log := by
  obtain ⟨x, hx, ht⟩ := h
  unfold mergeStep
  dsimp only
  rw [hx]
  dsimp only
  have hcond : ¬ (x.term ≠ f.term) := by simp [ht]
  rw [if_neg hcond, hx]
  simp only [Option.isNone_some, Bool.false_eq_true, if_false]

/-- A merge fold whose entries are all already present with their terms is a
no-op. -/
theorem mergeList_noop :
    ∀ (es log : List LogEntry),
      (∀ e ∈ es, ∃ x, logGetEntry log e.index = some x ∧ x.term = e.term) →
      es.foldl mergeStep log = log := by
  intro es
  induction es with
  | nil => intro log _; rfl
  | cons f rest ih =>
    intro log h
    show rest.foldl mergeStep (mergeStep log f) = log
    rw [mergeStep_noop log f (h f (List.mem_cons_self f rest))]
    exact ih log (fun e he => h e (List.mem_cons_of_mem f he))

/-- After merging an index-ascending batch of positive-index entries, every
batch entry is present with its term. -/
theorem mergeList_establishes :
    ∀ (es log : List LogEntry),
      es.Pairwise (fun a b => a.index < b.index) →
      (∀ e ∈ es, 0 < e.index) →
      ∀ e ∈ es, ∃ x, logGetEntry (es.foldl mergeStep log) e.index = some x ∧
        x.term = e.term := by
  intro es
  induction es with
  | nil => intro log _ _ e he; simp at he
  | cons f rest ih =>
    intro log hp h0 e he
    have hp2 := List.pairwise_cons.mp hp
    rcases List.mem_cons.mp he with heq | he2
    · subst heq
      show ∃ x, logGetEntry (rest.foldl mergeStep (mergeStep log e)) e.index = some x ∧
        x.term = e.term
      rw [logGetEntry_mergeList_below rest (mergeStep log e) e.index hp2.1]
      exact logGetEntry_mergeStep_self log e
        (by have := h0 e (List.mem_cons_self e rest); omega)
    · exact ih (mergeStep log f) hp2.2
        (fun x hx => h0 x (List.mem_cons_of_mem f hx)) e he2

/-- Closed form of a `handle_append_entries` call that passes the term and
consistency checks. -/
theorem hae_eq (nd : RaftNode) (term lid pli plt : Nat) (es : List LogEntry) (lc : Nat)
    (h1 : ¬ term < nd.current_term)
    (hcons : (if pli = 0 then true
        else get_term_at (become_follower nd term) pli == plt) = true) :
    handle_append_entries nd term lid pli plt es lc =
      (if nd.commit_index < lc then
        { become_follower nd term with
          log := es.foldl mergeStep nd.log
          commit_index := min lc (last_log_index
            { become_follower nd term with log := es.foldl mergeStep nd.log }) }
       else { become_follower nd term with log := es.foldl mergeStep nd.log },
       .AppendEntriesResponse term true, true) := by
  unfold handle_append_entries
  rw [if_neg h1, if_pos (show nd.current_term ≤ term by omega)]
  dsimp only
  rw [hcons]
  simp only [Bool.not_true, Bool.false_eq_true, if_false]
  by_cases hlc : nd.commit_index < lc
  · have hlc2 : (become_follower nd term).commit_index < lc := hlc
    rw [if_pos hlc2, if_pos hlc]
    rfl
  · have hlc2 : ¬ (become_follower nd term).commit_index < lc := hlc
    rw [if_neg hlc2, if_neg hlc]
    rfl

/-- The field-level effect of a successful `handle_append_entries`. -/
theorem hae_fields (nd : RaftNode) (term lid pli plt : Nat) (es : List LogEntry) (lc : Nat)
    (h1 : ¬ term < nd.current_term)
    (hcons : (if pli = 0 then true
        else get_term_at (become_follower nd term) pli == plt) = true) :
    (handle_append_entries nd term lid pli plt es lc).1.log =
        es.foldl mergeStep nd.log ∧
    (handle_append_entries nd term lid pli plt es lc).1.current_term = term ∧
    (handle_append_entries nd term lid pli plt es lc).1.commit_index =
      (if nd.commit_index < lc then
        min lc (last_log_index (handle_append_entries nd term lid pli plt es lc).1)
       else nd.commit_index) ∧
    respSuccess (handle_append_entries nd term lid pli plt es lc).2.1 = true := by
  have heq := hae_eq nd term lid pli plt es lc h1 hcons
  rw [heq]
  by_cases hlc : nd.commit_index < lc
  · simp only [if_pos hlc]
    refine ⟨?_, ?_, ?_, ?_⟩ <;> first | rfl | trivial
  · simp only [if_neg hlc]
    refine ⟨?_, ?_, ?_, ?_⟩ <;> first | rfl | trivial

/-- Redelivering a well-formed AppendEntries to the state it produced leaves
the log unchanged, refreshes commit_index by the same rule, and succeeds. -/
theorem hae_second (nd X : RaftNode) (term lid pli plt : Nat) (es : List LogEntry) (lc : Nat)
    (hXlog : X.log = es.foldl mergeStep nd.log)
    (hXct : X.current_term = term)
    (hsort : es.Pairwise (fun a b => a.index < b.index))
    (hgt : ∀ e ∈ es, pli < e.index)
    (hcons : (if pli = 0 then true
        else get_term_at (become_follower nd term) pli == plt) = true) :
    (handle_append_entries X term lid pli plt es lc).1.log = X.log ∧
    (handle_append_entries X term lid pli plt es lc).1.commit_index =
      (if X.commit_index < lc then min lc (last_log_index X) else X.commit_index) ∧
    respSuccess (handle_append_entries X term lid pli plt es lc).2.1 = true := by
  have h1 : ¬ term < X.current_term := by rw [hXct]; omega
  have hcons2 : (if pli = 0 then true
      else get_term_at (become_follower X term) pli == plt) = true := by
    by_cases hpli : pli = 0
    · simp [hpli]
    · rw [if_neg hpli]
      have hb : logGetEntry (es.foldl mergeStep nd.log) pli = logGetEntry nd.log pli :=
        logGetEntry_mergeList_below es nd.log pli hgt
      have hc := hcons
      rw [if_neg hpli] at hc
      unfold get_term_at logTermAt at hc ⊢
      have hbfX : (become_follower X term).log = X.log := rfl
      have hbfn : (become_follower nd term).log = nd.log := rfl
      rw [hbfX, hXlog, hb]
      rw [hbfn] at hc
      exact hc
  have hnoop : es.foldl mergeStep X.log = X.log := by
    rw [hXlog]
    exact mergeList_noop es _ (mergeList_establishes es nd.log hsort
      (fun e he => by have := hgt e he; omega))
  have heq := hae_eq X term lid pli plt es lc h1 hcons2
  rw [heq]
  by_cases hlc : X.commit_index < lc
  · simp only [if_pos hlc]
    refine ⟨hnoop, ?_, rfl⟩
    show min lc (last_log_index
        { become_follower X term with log := es.foldl mergeStep X.log }) =
      min lc (last_log_index X)
    rw [hnoop]
    rfl
  · simp only [if_neg hlc]
    exact ⟨hnoop, rfl, rfl⟩

/-- Claim C7, amended: for an AppendEntries whose entries carry strictly
increasing indices all beyond prev_log_index (as a correct leader emits), if
the first delivery returns success=true then redelivering the identical
message leaves the log and commit_index exactly as after the first delivery
and the second reply is also success=true. -/
theorem append_entries_idempotent_sorted (nd : RaftNode)
    (term lid pli plt lc : Nat) (es : List LogEntry)
    (hsort : es.Pairwise (fun a b => a.index < b.index))
    (hgt : ∀ e ∈ es, pli < e.index)
    (hsucc : respSuccess (handle_append_entries nd term lid pli plt es lc).2.1 = true) :
    (handle_append_entries (handle_append_entries nd term lid pli plt es lc).1
        term lid pli plt es lc).1.log =
      (handle_append_entries nd term lid pli plt es lc).1.log ∧
    (handle_append_entries (handle_append_entries nd term lid pli plt es lc).1
        term lid pli plt es lc).1.commit_index =
      (handle_append_entries nd term lid pli plt es lc).1.commit_index ∧
    respSuccess ((handle_append_entries (handle_append_entries nd term lid pli plt es lc).1
        term lid pli plt es lc).2.1) = true := by
  by_cases h1 : term < nd.current_term
  · exfalso
    unfold handle_append_entries at hsucc
    rw [if_pos h1] at hsucc
    simp [respSuccess] at hsucc
  · cases hcons : (if pli = 0 then true
        else get_term_at (become_follower nd term) pli == plt) with
    | false =>
      exfalso
      unfold handle_append_entries at hsucc
      rw [if_neg h1, if_pos (show nd.current_term ≤ term by omega)] at hsucc
      dsimp only at hsucc
      rw [hcons] at hsucc
      simp [respSuccess] at hsucc
    | true =>
      obtain ⟨hlog1, hct1, hci1, _⟩ := hae_fields nd term lid pli plt es lc h1 hcons
      obtain ⟨hlog2, hci2, hres2⟩ := hae_second nd
        (handle_append_entries nd term lid pli plt es lc).1
        term lid pli plt es lc hlog1 hct1 hsort hgt hcons
      refine ⟨hlog2, ?_, hres2⟩
      rw [hci2, hci1]
      split_ifs <;> omega

/-- Witness for `append_entries_idempotent_sorted`: a fresh follower
receiving and then re-receiving a one-entry AppendEntries. -/
theorem append_entries_idempotent_sorted_witness :
    (handle_append_entries
        (handle_append_entries (RaftNode.new 1 [1, 2, 3]) 1 2 0 0 [⟨1, 1, [7]⟩] 1).1
        1 2 0 0 [⟨1, 1, [7]⟩] 1).1.log =
      (handle_append_entries (RaftNode.new 1 [1, 2, 3]) 1 2 0 0 [⟨1, 1, [7]⟩] 1).1.log :=
  (append_entries_idempotent_sorted (RaftNode.new 1 [1, 2, 3]) 1 2 0 0 1 [⟨1, 1, [7]⟩]
    (by simp) (by simp) (by decide)).1

end Raft
